import Mathlib

/-!
Shallow embedding of the `filter` package of `gosrvlib`: a generic,
struct-agnostic filtering engine over slices, with a two-level AND/OR rule
set, typed comparison evaluators, offset/length pagination and in-place
compaction.

Go dynamic values (`interface{}`) are embedded as the inductive `GoValue`.
Go `float64` values are embedded as exact rationals: the evaluators perform
no arithmetic on them, only conversions and order comparisons, which are
exact on every representable value. Go `int` arguments are embedded as `Int`
where the sign is checked, and as `Nat` where the source guarantees
non-negative values.
-/

/-- Embedding of a Go `interface{}` value as used by the filter evaluators:
`null` covers untyped nil and nil pointers, `int` all integer kinds,
`float` the float64 kind, `str` strings, `arr` arrays and slices,
`mapLen` map values (only the element count is ever consulted),
and `unsup` the unsupported kinds (structs, funcs, ...). -/
inductive GoValue where
  | null : GoValue
  | int (i : ℤ) : GoValue
  | float (q : ℚ) : GoValue
  | str (s : String) : GoValue
  | arr (l : List GoValue) : GoValue
  | mapLen (n : ℕ) : GoValue
  | unsup (tag : String) : GoValue

/-- Modelled from the spec: `isNil(v)` is true if v is untyped nil or a
nil-valued pointer/interface/map/slice (the coercion utilities file is not
among the sources). -/
def isNil : GoValue → Bool
  | .null => true
  | _ => false

/-- Modelled from the spec: numeric coercion — any built-in signed/unsigned
integer kind is converted to a 64-bit float for comparison; non-numeric
values are left as-is (the coercion utilities file is not among the
sources). -/
def convertValue : GoValue → GoValue
  | .int i => .float (i : ℚ)
  | v => v

/-- Modelled from the spec: reference-value coercion at construction time —
operators with a numeric reference require the supplied reference to be
convertible to a number, failing with a type error otherwise (the coercion
utilities file is not among the sources). -/
def convertFloatValue : GoValue → Except String ℚ
  | .int i => .ok (i : ℚ)
  | .float q => .ok q
  | v => match v with
    | _ => .error "rule with numeric operator should have numeric value"

/-- Go's `int(f)` conversion of a float64: truncation toward zero. On an
exact rational this is the truncated division of the numerator by the
denominator. -/
def goTrunc (q : ℚ) : ℤ :=
  q.num.tdiv (q.den : ℤ)

/-- Length of a Go value of kind array, map, slice or string (`reflect.Value.Len`). -/
def goLen : GoValue → Option ℕ
  | .str s => some s.length
  | .arr l => some l.length
  | .mapLen n => some n
  | _ => none

/-- The `gte` evaluator state: the numeric reference (src/pkg/filter/evaluate_gte.go). -/
structure Gte where
  ref : ℚ

/-- Constructor `newGTE`: converts the reference to float64, failing on
non-numeric references (src/pkg/filter/evaluate_gte.go). -/
def newGTE (r : GoValue) : Except String Gte :=
  match convertFloatValue r with
  | .error e => .error e
  | .ok v => .ok ⟨v⟩

/-- `gte.Evaluate` (src/pkg/filter/evaluate_gte.go): after coercion, nil
input is false; a float64 input is compared numerically against the
reference; an array/map/slice/string input has its length compared against
`int(ref)`; other kinds give false. -/
def Gte.Evaluate (e : Gte) (v : GoValue) : Bool :=
  let w := convertValue v
  if isNil w then false
  else
    match w with
    | .float q => decide (e.ref ≤ q)
    | .str s => decide (goTrunc e.ref ≤ (s.length : ℤ))
    | .arr l => decide (goTrunc e.ref ≤ (l.length : ℤ))
    | .mapLen n => decide (goTrunc e.ref ≤ (n : ℤ))
    | _ => false

/-- Go `strings.HasSuffix(s, suffix)`: `len(s) >= len(suffix)` and the last
`len(suffix)` characters of `s` equal `suffix`. -/
def goStringHasSuffix (s suf : String) : Bool :=
  decide (suf.data.length ≤ s.data.length) &&
    decide (s.data.drop (s.data.length - suf.data.length) = suf.data)

/-- The `evalHasSuffix` evaluator state: the string reference
(src/pkg/filter/evaluate_hassuffix.go). -/
structure EvalHasSuffix where
  ref : String

/-- Constructor `newHasSuffix`: requires the reference to be a string,
failing with a descriptive type error otherwise
(src/pkg/filter/evaluate_hassuffix.go). -/
def newHasSuffix (r : GoValue) : Except String EvalHasSuffix :=
  match r with
  | .str s => .ok ⟨s⟩
  | _ => .error "rule of type hasSuffix should have string value"

/-- `evalHasSuffix.Evaluate` (src/pkg/filter/evaluate_hassuffix.go):
false on non-string input, otherwise suffix test against the reference. -/
def EvalHasSuffix.Evaluate (e : EvalHasSuffix) (v : GoValue) : Bool :=
  match v with
  | .str s => goStringHasSuffix s e.ref
  | _ => false

/-- Boolean success test for an `Except` result (Go: `err == nil`). -/
def exOk {ε β : Type} : Except ε β → Bool
  | .ok _ => true
  | .error _ => false

/-- Boolean component of a Go `(bool, error)` pair embedded as `Except`:
the Go functions of this package return `false` together with any error. -/
def exBool {ε : Type} : Except ε Bool → Bool
  | .ok b => b
  | .error _ => false

/-- Outcome of `fieldGetter.GetFieldValue`: the sentinel `errFieldNotFound`
is distinguished from any other extraction error. The field getter itself
is not among the sources and is kept as an abstract capability, per the
spec's Field Accessor contract. -/
inductive FieldErr where
  | notFound : FieldErr
  | other (msg : String) : FieldErr
deriving DecidableEq

/-- Modelled from the spec: a `Rule` names a `Field` and carries its
compiled evaluation behavior `Evaluate` (the Evaluator applied to the
extracted field value, returning `(bool, error)`); rule.go is not among
the sources, so `Evaluate` is kept abstract. -/
structure Rule where
  Field : String
  Evaluate : GoValue → Except String Bool

/-- The `Processor` configuration (part_000): the abstract field getter,
the maximum total rule count, the maximum result count, and the URL query
key for `ParseURLQuery`. -/
structure Processor (α : Type) where
  GetFieldValue : α → String → Except FieldErr GoValue
  maxRules : ℕ
  maxResults : ℕ
  urlQueryFilterKey : String

/-- Default `maxRules` used by `New` (part_000). -/
def defaultMaxRules : ℕ := 3

/-- `evaluateRule` (part_000): resolve the field; `errFieldNotFound` is a
soft non-match, any other getter error is a hard error; otherwise the
rule's evaluator decides. -/
def evaluateRule {α : Type} (p : Processor α) (rule : Rule) (obj : α) : Except String Bool :=
  match p.GetFieldValue obj rule.Field with
  | .error .notFound => .ok false
  | .error (.other msg) => .error msg
  | .ok value => rule.Evaluate value

/-- Inner loop of `evaluateRules` (part_000): OR over one group with
first-match short-circuit. -/
def evalGroup {α : Type} (p : Processor α) (obj : α) : List Rule → Except String Bool
  | [] => .ok false
  | r :: rs =>
    match evaluateRule p r obj with
    | .error e => .error e
    | .ok true => .ok true
    | .ok false => evalGroup p obj rs

/-- `evaluateRules` (part_000): AND over the outer groups with
fail-fast short-circuit; the empty outer sequence is true. -/
def evaluateRules {α : Type} (p : Processor α) (rules : List (List Rule)) (obj : α) : Except String Bool :=
  match rules with
  | [] => .ok true
  | g :: gs =>
    match evalGroup p obj g with
    | .error e => .error e
    | .ok false => .ok false
    | .ok true => evaluateRules p gs obj

/-- Total rule count across both levels, as summed by `checkRulesCount`. -/
def totalRulesCount (rules : List (List Rule)) : ℕ :=
  (rules.map List.length).sum

/-- The distinct error values returned by `ApplySubset` (part_000). -/
inductive FilterErr where
  | offsetNegative : FilterErr
  | lengthNotPositive : FilterErr
  | tooManyRules (got max : ℕ) : FilterErr
  | notSlicePtr (typ : String) : FilterErr
  | evalError (msg : String) : FilterErr
deriving DecidableEq

/-- `checkRulesCount` (part_000): error when the total rule count exceeds
the configured maximum. -/
def checkRulesCount {α : Type} (p : Processor α) (rules : List (List Rule)) : Option FilterErr :=
  if totalRulesCount rules > p.maxRules then
    some (.tooManyRules (totalRulesCount rules) p.maxRules)
  else
    none

/-- The `slicePtr interface{}` argument of `ApplySubset`, classified the way
the source's reflection checks classify it: a pointer to a slice (with its
contents), a non-pointer value, or a pointer to a non-slice value (each
carrying the type description used in the error message). -/
inductive Target (α : Type) where
  | slicePtr (l : List α) : Target α
  | nonPtr (typ : String) : Target α
  | ptrNonSlice (typ : String) : Target α
deriving DecidableEq

/-- Result of an `ApplySubset` call: the error (if any), the final state of
the target, and the returned `(n, m)` counters. Go returns `(0, 0, err)` on
every error path. -/
structure FilterOutcome (α : Type) where
  err : Option FilterErr
  target : Target α
  n : ℕ
  m : ℕ
deriving DecidableEq

/-- The loop of `filterSliceValue` (part_000), index order, one pass.
State: remaining elements, `skip` (initially `offset`), counters `n`, `m`,
and the already-compacted prefix `acc` (reversed). Matches increment `m`;
the first `skip` matches are dropped; later matches are written into the
prefix while `n < length`. On a matcher error Go returns `(0, 0, err)`
without truncating: positions below `n` hold the compacted prefix and
positions from `n` on still hold the original elements. `orig` is the
original slice, used only to express that error-state contents. -/
def filterLoop {α : Type} (matcher : α → Except String Bool) (length : ℕ) (orig : List α) :
    List α → ℕ → ℕ → ℕ → List α → FilterOutcome α
  | [], _, n, m, acc => ⟨none, .slicePtr acc.reverse, n, m⟩
  | x :: xs, skip, n, m, acc =>
    match matcher x with
    | .error e => ⟨some (.evalError e), .slicePtr (acc.reverse ++ orig.drop n), 0, 0⟩
    | .ok false => filterLoop matcher length orig xs skip n m acc
    | .ok true =>
      if 0 < skip then
        filterLoop matcher length orig xs (skip - 1) n (m + 1) acc
      else if n < length then
        filterLoop matcher length orig xs skip (n + 1) (m + 1) (x :: acc)
      else
        filterLoop matcher length orig xs skip n (m + 1) acc

/-- `filterSliceValue` (part_000): single pass in index order, then the
slice is truncated to the retained count. `offset` and `length` are the
non-negative values guaranteed by `ApplySubset`'s checks. -/
def filterSliceValue {α : Type} (slice : List α) (offset length : ℕ)
    (matcher : α → Except String Bool) : FilterOutcome α :=
  filterLoop matcher length slice slice offset 0 0 []

/-- `ApplySubset` (part_000): validates offset, length, rule count and the
target's kind, in that order, then filters the slice in place with the
rule-set matcher. -/
def ApplySubset {α : Type} (p : Processor α) (rules : List (List Rule)) (target : Target α)
    (offset length : ℤ) : FilterOutcome α :=
  if offset < 0 then ⟨some .offsetNegative, target, 0, 0⟩
  else if length < 1 then ⟨some .lengthNotPositive, target, 0, 0⟩
  else
    match checkRulesCount p rules with
    | some e => ⟨some e, target, 0, 0⟩
    | none =>
      match target with
      | .nonPtr typ => ⟨some (.notSlicePtr typ), target, 0, 0⟩
      | .ptrNonSlice typ => ⟨some (.notSlicePtr typ), target, 0, 0⟩
      | .slicePtr l =>
        filterSliceValue l offset.toNat length.toNat (fun x => evaluateRules p rules x)

/-- Go `url.Values.Get`: the first value associated with the key, or the
empty string when there is none. `url.Values` is embedded as a function
from keys to value lists. -/
def urlValuesGet (q : String → List String) (key : String) : String :=
  match q key with
  | [] => ""
  | v :: _ => v

/-- `ParseURLQuery` (part_000): reads the configured query key with
`url.Values.Get`; an empty value yields a nil rule set and no error,
otherwise the value is handed to `ParseJSON`. JSON decoding is performed
by the external `encoding/json` package, so it is abstracted as the
`parseJSON` argument. -/
def ParseURLQuery {α : Type} (parseJSON : String → Except String (List (List Rule)))
    (p : Processor α) (q : String → List String) : Except String (Option (List (List Rule))) :=
  let value := urlValuesGet q p.urlQueryFilterKey
  if value = "" then .ok none
  else
    match parseJSON value with
    | .error e => .error e
    | .ok r => .ok (some r)

/-- Concrete record type and processor fixture used by the witnesses: the
records are natural numbers and the field getter exposes the record itself
under the field name `n`. -/
def pW : Processor ℕ :=
  { GetFieldValue := fun obj name => if name = "n" then .ok (.int obj) else .error .notFound,
    maxRules := defaultMaxRules,
    maxResults := 2 ^ 31 - 1,
    urlQueryFilterKey := "filter" }

/-- Witness fixture: a rule matching records whose field `n` is below 5. -/
def ruleLt5 : Rule :=
  { Field := "n",
    Evaluate := fun v =>
      match v with
      | .int i => .ok (decide (i < 5))
      | _ => .ok false }

/-- Witness fixture: a rule matching records whose field `n` is above 2. -/
def ruleGt2 : Rule :=
  { Field := "n",
    Evaluate := fun v =>
      match v with
      | .int i => .ok (decide (2 < i))
      | _ => .ok false }

/-- Witness fixture: a rule matching records whose field `n` is negative. -/
def ruleLt0 : Rule :=
  { Field := "n",
    Evaluate := fun v =>
      match v with
      | .int i => .ok (decide (i < 0))
      | _ => .ok false }

/-- Witness fixture: a rule whose evaluator always reports a hard error. -/
def ruleBoom : Rule :=
  { Field := "n", Evaluate := fun _ => .error "boom" }

/-- Witness fixture: a processor whose field getter never resolves a field. -/
def pNotFound : Processor ℕ :=
  { GetFieldValue := fun _ _ => .error .notFound,
    maxRules := defaultMaxRules,
    maxResults := 2 ^ 31 - 1,
    urlQueryFilterKey := "filter" }

/-- Witness fixture: a processor whose field getter fails hard. -/
def pHardErr : Processor ℕ :=
  { GetFieldValue := fun _ _ => .error (.other "accessor failure"),
    maxRules := defaultMaxRules,
    maxResults := 2 ^ 31 - 1,
    urlQueryFilterKey := "filter" }

/-- Witness fixture: a JSON rule parser recognizing one payload. -/
def parseJSONW : String → Except String (List (List Rule)) :=
  fun s => if s = "[[x]]" then .ok [[ruleLt5]] else .error "failed unmarshaling rules"

/-- Witness fixture: 4.5 as an exact rational. -/
def ratNineHalves : ℚ := ⟨9, 2, by norm_num, by norm_num⟩
theorem filterLoop_of_allOk {α : Type} (matcher : α → Except String Bool) (length : ℕ)
    (orig : List α) :
    ∀ (xs : List α) (skip n m : ℕ) (acc : List α),
      (∀ x ∈ xs, exOk (matcher x) = true) →
      filterLoop matcher length orig xs skip n m acc =
        ⟨none,
         .slicePtr (acc.reverse ++ (((xs.filter fun x => exBool (matcher x)).drop skip).take (length - n))),
         n + (((xs.filter fun x => exBool (matcher x)).drop skip).take (length - n)).length,
         m + (xs.filter fun x => exBool (matcher x)).length⟩ := by
  intro xs
  induction xs with
  | nil =>
    intro skip n m acc _
    simp [filterLoop]
  | cons x xs ih =>
    intro skip n m acc hok
    have hx : exOk (matcher x) = true := hok x (List.mem_cons_self x xs)
    have hxs : ∀ y ∈ xs, exOk (matcher y) = true := fun y hy => hok y (List.mem_cons_of_mem x hy)
    cases hm : matcher x with
    | error e => rw [hm] at hx; simp [exOk] at hx
    | ok b =>
      have hb : exBool (matcher x) = b := by rw [hm]; rfl
      cases b with
      | false =>
        rw [filterLoop, hm]
        rw [ih skip n m acc hxs]
        simp [List.filter_cons, hb]
      | true =>
        cases skip with
        | succ k =>
          rw [filterLoop, hm]
          simp only [Nat.succ_sub_one, if_pos (Nat.succ_pos k)]
          rw [ih k n (m + 1) acc hxs]
          simp [List.filter_cons, hb, List.drop_succ_cons]
          omega
        | zero =>
          by_cases hn : n < length
          · rw [filterLoop, hm]
            simp only [Nat.lt_irrefl, if_neg (by omega : ¬ 0 < 0), if_pos hn]
            rw [ih 0 (n + 1) (m + 1) (x :: acc) hxs]
            have he : length - n = (length - (n + 1)) + 1 := by omega
            simp [List.filter_cons, hb, he, List.take_succ_cons]
            omega
          · rw [filterLoop, hm]
            simp only [if_neg (by omega : ¬ 0 < 0), if_neg hn]
            rw [ih 0 n (m + 1) acc hxs]
            have he : length - n = 0 := by omega
            simp [List.filter_cons, hb, he]
            omega

theorem filterLoop_allOk_of_success {α : Type} (matcher : α → Except String Bool) (length : ℕ)
    (orig : List α) :
    ∀ (xs : List α) (skip n m : ℕ) (acc : List α),
      (filterLoop matcher length orig xs skip n m acc).err = none →
      ∀ x ∈ xs, exOk (matcher x) = true := by
  intro xs
  induction xs with
  | nil => intro _ _ _ _ _ x hx; exact absurd hx (List.not_mem_nil x)
  | cons x xs ih =>
    intro skip n m acc hnone y hy
    rw [filterLoop] at hnone
    cases hm : matcher x with
    | error e => rw [hm] at hnone; simp at hnone
    | ok b =>
      rw [hm] at hnone
      rcases List.mem_cons.mp hy with rfl | hy'
      · rw [hm]; rfl
      · cases b with
        | false => exact ih skip n m acc hnone y hy'
        | true =>
          by_cases hs : 0 < skip
          · rw [if_pos hs] at hnone
            exact ih (skip - 1) n (m + 1) acc hnone y hy'
          · rw [if_neg hs] at hnone
            by_cases hn : n < length
            · rw [if_pos hn] at hnone
              exact ih skip (n + 1) (m + 1) (x :: acc) hnone y hy'
            · rw [if_neg hn] at hnone
              exact ih skip n (m + 1) acc hnone y hy'

theorem ApplySubset_success {α : Type} (p : Processor α) (rules : List (List Rule)) (l : List α)
    (offset length : ℤ) (out : FilterOutcome α)
    (h : ApplySubset p rules (.slicePtr l) offset length = out) (hnone : out.err = none) :
    0 ≤ offset ∧ 1 ≤ length ∧ totalRulesCount rules ≤ p.maxRules ∧
    (∀ x ∈ l, exOk (evaluateRules p rules x) = true) ∧
    out = ⟨none,
      .slicePtr (((l.filter fun x => exBool (evaluateRules p rules x)).drop offset.toNat).take length.toNat),
      (((l.filter fun x => exBool (evaluateRules p rules x)).drop offset.toNat).take length.toNat).length,
      (l.filter fun x => exBool (evaluateRules p rules x)).length⟩ := by
  unfold ApplySubset at h
  by_cases ho : offset < 0
  · rw [if_pos ho] at h
    rw [← h] at hnone
    simp at hnone
  rw [if_neg ho] at h
  by_cases hl : length < 1
  · rw [if_pos hl] at h
    rw [← h] at hnone
    simp at hnone
  rw [if_neg hl] at h
  cases hc : checkRulesCount p rules with
  | some e =>
    rw [hc] at h
    rw [← h] at hnone
    simp at hnone
  | none =>
    rw [hc] at h
    simp only [] at h
    have hcount : totalRulesCount rules ≤ p.maxRules := by
      unfold checkRulesCount at hc
      by_cases hgt : totalRulesCount rules > p.maxRules
      · rw [if_pos hgt] at hc; exact absurd hc (by simp)
      · omega
    unfold filterSliceValue at h
    have hok : ∀ x ∈ l, exOk (evaluateRules p rules x) = true := by
      apply filterLoop_allOk_of_success (fun x => evaluateRules p rules x) length.toNat l l
        offset.toNat 0 0 []
      rw [h, hnone]
    refine ⟨by omega, by omega, hcount, hok, ?_⟩
    rw [← h]
    rw [filterLoop_of_allOk (fun x => evaluateRules p rules x) length.toNat l l
      offset.toNat 0 0 [] hok]
    simp

/-- C1: a successful `ApplySubset` call on a slice performs one stable
filtering pass: of the records matching the rule set (in original order)
the first `offset` are counted but not retained, the following matches fill
the compacted prefix up to `length` of them, the slice is truncated to
exactly the retained count `n`, and the call returns `(n, m, nil)` with `m`
the total number of matches; the retained elements are a sublist of the
original slice, hence keep their original relative order. -/
theorem claim_C1_applySubset_single_pass {α : Type} (p : Processor α) (rules : List (List Rule))
    (l l' : List α) (offset length : ℤ) (n m : ℕ)
    (h : ApplySubset p rules (.slicePtr l) offset length = ⟨none, .slicePtr l', n, m⟩) :
    l' = ((l.filter fun x => exBool (evaluateRules p rules x)).drop offset.toNat).take length.toNat ∧
    n = l'.length ∧
    m = (l.filter fun x => exBool (evaluateRules p rules x)).length ∧
    l'.Sublist l := by
  obtain ⟨-, -, -, -, hout⟩ :=
    ApplySubset_success p rules l offset length ⟨none, .slicePtr l', n, m⟩ h rfl
  have h1 := congrArg FilterOutcome.target hout
  have h2 := congrArg FilterOutcome.n hout
  have h3 := congrArg FilterOutcome.m hout
  simp only [Target.slicePtr.injEq] at h1
  simp only [] at h2 h3
  refine ⟨h1, by rw [h1, h2], h3, ?_⟩
  rw [h1]
  exact ((List.take_sublist _ _).trans (List.drop_sublist _ _)).trans (List.filter_sublist _)

/-- Closed witness for C1, at the spec's own example: records 1, 4, 5, 9
with the rule n < 5, offset 0 and length 10 retain exactly 1 and 4. -/
theorem claim_C1_witness :
    ([1, 4] : List ℕ) =
      ((([1, 4, 5, 9] : List ℕ).filter fun x => exBool (evaluateRules pW [[ruleLt5]] x)).drop
        (0 : ℤ).toNat).take (10 : ℤ).toNat ∧
    2 = ([1, 4] : List ℕ).length ∧
    2 = (([1, 4, 5, 9] : List ℕ).filter fun x => exBool (evaluateRules pW [[ruleLt5]] x)).length ∧
    ([1, 4] : List ℕ).Sublist [1, 4, 5, 9] :=
  claim_C1_applySubset_single_pass pW [[ruleLt5]] [1, 4, 5, 9] [1, 4] 0 10 2 2 rfl

/-- C6: a successful `ApplySubset` call returning `(n, m, nil)` on a slice
of original length `len` satisfies `n <= length`, `n <= m` and `m <= len`. -/
theorem claim_C6_count_invariants {α : Type} (p : Processor α) (rules : List (List Rule))
    (l l' : List α) (offset length : ℤ) (n m : ℕ)
    (h : ApplySubset p rules (.slicePtr l) offset length = ⟨none, .slicePtr l', n, m⟩) :
    (n : ℤ) ≤ length ∧ n ≤ m ∧ m ≤ l.length := by
  obtain ⟨-, hlen, -, -, hout⟩ :=
    ApplySubset_success p rules l offset length ⟨none, .slicePtr l', n, m⟩ h rfl
  have h2 := congrArg FilterOutcome.n hout
  have h3 := congrArg FilterOutcome.m hout
  simp only [] at h2 h3
  have hfl : (List.filter (fun x => exBool (evaluateRules p rules x)) l).length ≤ l.length :=
    List.length_filter_le _ _
  have hn : n ≤ length.toNat := by
    rw [h2]
    simp [List.length_take]
  refine ⟨?_, ?_, by omega⟩
  · omega
  · rw [h2, h3]
    simp [List.length_take, List.length_drop]

/-- Closed witness for C6 at a concrete successful call. -/
theorem claim_C6_witness :
    ((2 : ℕ) : ℤ) ≤ 10 ∧ (2 : ℕ) ≤ 2 ∧ 2 ≤ ([1, 4, 5, 9] : List ℕ).length :=
  claim_C6_count_invariants pW [[ruleLt5]] [1, 4, 5, 9] [1, 4] 0 10 2 2 rfl

/-- C3: idempotence — after a successful `ApplySubset` with offset 0 and
length `L` retaining `n` elements, re-running the same rule set with
offset 0 and any length `L' >= L` on the compacted slice succeeds, leaves
its contents unchanged, and returns `retainedCount = totalMatches = n`. -/
theorem claim_C3_idempotent {α : Type} (p : Processor α) (rules : List (List Rule))
    (l l' : List α) (L L' : ℤ) (n m : ℕ) (hLL : L ≤ L')
    (h : ApplySubset p rules (.slicePtr l) 0 L = ⟨none, .slicePtr l', n, m⟩) :
    ApplySubset p rules (.slicePtr l') 0 L' = ⟨none, .slicePtr l', n, n⟩ := by
  obtain ⟨-, hL1, hcount, hok, hout⟩ :=
    ApplySubset_success p rules l 0 L ⟨none, .slicePtr l', n, m⟩ h rfl
  have h1 := congrArg FilterOutcome.target hout
  have h2 := congrArg FilterOutcome.n hout
  simp only [Target.slicePtr.injEq] at h1
  simp only [] at h2
  have hsub : l'.Sublist l := by
    rw [h1]
    exact ((List.take_sublist _ _).trans (List.drop_sublist _ _)).trans (List.filter_sublist _)
  have hmem : ∀ x ∈ l', exBool (evaluateRules p rules x) = true := by
    intro x hx
    rw [h1] at hx
    exact (List.mem_filter.mp ((List.drop_subset _ _) ((List.take_subset _ _) hx))).2
  have hokl' : ∀ x ∈ l', exOk (evaluateRules p rules x) = true :=
    fun x hx => hok x (hsub.subset hx)
  have hfself : l'.filter (fun x => exBool (evaluateRules p rules x)) = l' :=
    List.filter_eq_self.mpr hmem
  have hlen : l'.length ≤ L.toNat := by
    rw [h1]
    simp [List.length_take]
  have htake : l'.take L'.toNat = l' :=
    List.take_of_length_le (hlen.trans (Int.toNat_le_toNat hLL))
  have hc : checkRulesCount p rules = none := by
    unfold checkRulesCount
    rw [if_neg (by omega)]
  simp only [ApplySubset, if_neg (by omega : ¬ (0 : ℤ) < 0), if_neg (by omega : ¬ L' < 1), hc,
    filterSliceValue]
  rw [filterLoop_of_allOk (fun x => evaluateRules p rules x) L'.toNat l' l'
    (0 : ℤ).toNat 0 0 [] hokl']
  have hn' : l'.length = n := by rw [h1]; exact h2.symm
  simp only [List.reverse_nil, List.nil_append, Int.toNat_zero, List.drop_zero, Nat.sub_zero,
    Nat.zero_add, hfself, htake, hn']

/-- Closed witness for C3: filtering 1, 4, 5, 9 by n < 5 with length 2 and
re-filtering the compacted slice with length 3. -/
theorem claim_C3_witness :
    ApplySubset pW [[ruleLt5]] (.slicePtr [1, 4]) 0 3 = ⟨none, .slicePtr [1, 4], 2, 2⟩ :=
  claim_C3_idempotent pW [[ruleLt5]] [1, 4, 5, 9] [1, 4] 2 3 2 2 (by decide) rfl

/-- C5: when `offset < 0`, or `length < 1`, or the total rule count exceeds
the configured maximum, or the target is not a pointer to a slice,
`ApplySubset` returns `(0, 0, err)` with a non-nil error, the target is
left completely unmodified, and no rule is evaluated against any record:
the outcome is the same for every processor with the same maximum and
every rule set with the same total rule count, whatever their evaluators
and field getters do. -/
theorem claim_C5_precondition_errors {α : Type} (p : Processor α) (rules : List (List Rule))
    (target : Target α) (offset length : ℤ)
    (h : offset < 0 ∨ length < 1 ∨ p.maxRules < totalRulesCount rules ∨
      ∀ l : List α, target ≠ .slicePtr l) :
    (ApplySubset p rules target offset length).err ≠ none ∧
    (ApplySubset p rules target offset length).target = target ∧
    (ApplySubset p rules target offset length).n = 0 ∧
    (ApplySubset p rules target offset length).m = 0 ∧
    ∀ (p' : Processor α) (rules' : List (List Rule)), p'.maxRules = p.maxRules →
      totalRulesCount rules' = totalRulesCount rules →
      ApplySubset p' rules' target offset length = ApplySubset p rules target offset length := by
  by_cases ho : offset < 0
  · have hgen : ∀ (p'' : Processor α) (rules'' : List (List Rule)),
        ApplySubset p'' rules'' target offset length = ⟨some .offsetNegative, target, 0, 0⟩ := by
      intro p'' rules''
      simp only [ApplySubset, if_pos ho]
    rw [hgen p rules]
    refine ⟨by simp, rfl, rfl, rfl, ?_⟩
    intro p' rules' _ _
    rw [hgen p' rules']
  by_cases hl : length < 1
  · have hgen : ∀ (p'' : Processor α) (rules'' : List (List Rule)),
        ApplySubset p'' rules'' target offset length = ⟨some .lengthNotPositive, target, 0, 0⟩ := by
      intro p'' rules''
      simp only [ApplySubset, if_neg ho, if_pos hl]
    rw [hgen p rules]
    refine ⟨by simp, rfl, rfl, rfl, ?_⟩
    intro p' rules' _ _
    rw [hgen p' rules']
  by_cases hr : p.maxRules < totalRulesCount rules
  · have hgen : ∀ (p'' : Processor α) (rules'' : List (List Rule)),
        p''.maxRules = p.maxRules → totalRulesCount rules'' = totalRulesCount rules →
        ApplySubset p'' rules'' target offset length =
          ⟨some (.tooManyRules (totalRulesCount rules) p.maxRules), target, 0, 0⟩ := by
      intro p'' rules'' hm hc
      have hck : checkRulesCount p'' rules'' =
          some (.tooManyRules (totalRulesCount rules) p.maxRules) := by
        unfold checkRulesCount
        rw [hm, hc, if_pos hr]
      simp only [ApplySubset, if_neg ho, if_neg hl, hck]
    rw [hgen p rules rfl rfl]
    refine ⟨by simp, rfl, rfl, rfl, ?_⟩
    intro p' rules' hm hc
    rw [hgen p' rules' hm hc]
  · rcases h with h | h | h | h
    · exact absurd h ho
    · exact absurd h hl
    · exact absurd h hr
    · have hck : ∀ p'' : Processor α, p''.maxRules = p.maxRules →
          ∀ rules'' : List (List Rule), totalRulesCount rules'' = totalRulesCount rules →
          checkRulesCount p'' rules'' = none := by
        intro p'' hm rules'' hc
        unfold checkRulesCount
        rw [hm, hc, if_neg hr]
      cases target with
      | slicePtr l => exact absurd rfl (h l)
      | nonPtr typ =>
        have hgen : ∀ (p'' : Processor α) (rules'' : List (List Rule)),
            p''.maxRules = p.maxRules → totalRulesCount rules'' = totalRulesCount rules →
            ApplySubset p'' rules'' (.nonPtr typ) offset length =
              ⟨some (.notSlicePtr typ), .nonPtr typ, 0, 0⟩ := by
          intro p'' rules'' hm hc
          simp only [ApplySubset, if_neg ho, if_neg hl, hck p'' hm rules'' hc]
        rw [hgen p rules rfl rfl]
        refine ⟨by simp, rfl, rfl, rfl, ?_⟩
        intro p' rules' hm hc
        rw [hgen p' rules' hm hc]
      | ptrNonSlice typ =>
        have hgen : ∀ (p'' : Processor α) (rules'' : List (List Rule)),
            p''.maxRules = p.maxRules → totalRulesCount rules'' = totalRulesCount rules →
            ApplySubset p'' rules'' (.ptrNonSlice typ) offset length =
              ⟨some (.notSlicePtr typ), .ptrNonSlice typ, 0, 0⟩ := by
          intro p'' rules'' hm hc
          simp only [ApplySubset, if_neg ho, if_neg hl, hck p'' hm rules'' hc]
        rw [hgen p rules rfl rfl]
        refine ⟨by simp, rfl, rfl, rfl, ?_⟩
        intro p' rules' hm hc
        rw [hgen p' rules' hm hc]

/-- Closed witness for C5: a negative offset is rejected with the collection
untouched, and the outcome is identical for a processor and rule set with
completely different evaluation behavior. -/
theorem claim_C5_witness :
    (ApplySubset pW [[ruleLt5]] (.slicePtr [1]) (-1) 1).err ≠ none ∧
    (ApplySubset pW [[ruleLt5]] (.slicePtr [1]) (-1) 1).target = .slicePtr [1] ∧
    (ApplySubset pW [[ruleLt5]] (.slicePtr [1]) (-1) 1).n = 0 ∧
    (ApplySubset pW [[ruleLt5]] (.slicePtr [1]) (-1) 1).m = 0 ∧
    ApplySubset pHardErr [[ruleBoom]] (.slicePtr [1]) (-1) 1 =
      ApplySubset pW [[ruleLt5]] (.slicePtr [1]) (-1) 1 := by
  obtain ⟨h1, h2, h3, h4, h5⟩ :=
    claim_C5_precondition_errors pW [[ruleLt5]] (.slicePtr [1]) (-1) 1 (Or.inl (by decide))
  exact ⟨h1, h2, h3, h4, h5 pHardErr [[ruleBoom]] rfl rfl⟩

theorem evalGroup_of_allOk {α : Type} (p : Processor α) (obj : α) :
    ∀ g : List Rule, (∀ r ∈ g, exOk (evaluateRule p r obj) = true) →
      evalGroup p obj g = .ok (g.any fun r => exBool (evaluateRule p r obj)) := by
  intro g
  induction g with
  | nil => intro _; simp [evalGroup]
  | cons r rs ih =>
    intro hok
    have hr : exOk (evaluateRule p r obj) = true := hok r (List.mem_cons_self r rs)
    have hrs : ∀ r' ∈ rs, exOk (evaluateRule p r' obj) = true :=
      fun r' hr' => hok r' (List.mem_cons_of_mem r hr')
    cases he : evaluateRule p r obj with
    | error e => rw [he] at hr; simp [exOk] at hr
    | ok b =>
      have hb : exBool (evaluateRule p r obj) = b := by rw [he]; rfl
      cases b with
      | true => rw [evalGroup, he]; simp [hb]
      | false => rw [evalGroup, he, ih hrs]; simp [hb]

theorem evalGroup_allFalse {α : Type} (p : Processor α) (obj : α) :
    ∀ g : List Rule, (∀ r ∈ g, evaluateRule p r obj = .ok false) →
      evalGroup p obj g = .ok false := by
  intro g
  induction g with
  | nil => intro _; rfl
  | cons r rs ih =>
    intro hall
    rw [evalGroup, hall r (List.mem_cons_self r rs)]
    exact ih fun r' hr' => hall r' (List.mem_cons_of_mem r hr')

theorem evalGroup_firstMatch {α : Type} (p : Processor α) (obj : α) :
    ∀ (g₁ : List Rule) (r : Rule) (g₂ : List Rule),
      (∀ r' ∈ g₁, evaluateRule p r' obj = .ok false) →
      evaluateRule p r obj = .ok true →
      evalGroup p obj (g₁ ++ r :: g₂) = .ok true := by
  intro g₁
  induction g₁ with
  | nil =>
    intro r g₂ _ hr
    rw [List.nil_append, evalGroup, hr]
  | cons a g₁ ih =>
    intro r g₂ hall hr
    rw [List.cons_append, evalGroup, hall a (List.mem_cons_self a g₁)]
    exact ih r g₂ (fun r' hr' => hall r' (List.mem_cons_of_mem a hr')) hr

/-- C2: the two-level evaluation is AND of ORs. The empty outer sequence
accepts every record; when every involved rule evaluation succeeds, the
result is exactly `all (any ...)` — so `[[a],[b,c],[d]]` accepts a record
exactly when `a AND (b OR c) AND d` hold for it; evaluation of a group
stops at its first matching rule (rules after it, here `g₂`, are never
consulted), and a group in which no rule matches fails the record
immediately (later groups `gs` are never consulted). -/
theorem claim_C2_and_of_ors {α : Type} (p : Processor α) (obj : α) :
    (evaluateRules p [] obj = .ok true) ∧
    (∀ rules : List (List Rule),
      (∀ g ∈ rules, ∀ r ∈ g, exOk (evaluateRule p r obj) = true) →
      evaluateRules p rules obj =
        .ok (rules.all fun g => g.any fun r => exBool (evaluateRule p r obj))) ∧
    (∀ (g₁ : List Rule) (r : Rule) (g₂ : List Rule) (gs : List (List Rule)),
      (∀ r' ∈ g₁, evaluateRule p r' obj = .ok false) →
      evaluateRule p r obj = .ok true →
      evaluateRules p ((g₁ ++ r :: g₂) :: gs) obj = evaluateRules p gs obj) ∧
    (∀ (g : List Rule) (gs : List (List Rule)),
      (∀ r ∈ g, evaluateRule p r obj = .ok false) →
      evaluateRules p (g :: gs) obj = .ok false) := by
  refine ⟨rfl, ?_, ?_, ?_⟩
  · intro rules
    induction rules with
    | nil => intro _; rfl
    | cons g gs ih =>
      intro hok
      have hg : ∀ r ∈ g, exOk (evaluateRule p r obj) = true :=
        hok g (List.mem_cons_self g gs)
      have hgs : ∀ g' ∈ gs, ∀ r ∈ g', exOk (evaluateRule p r obj) = true :=
        fun g' hg' => hok g' (List.mem_cons_of_mem g hg')
      rw [evaluateRules, evalGroup_of_allOk p obj g hg]
      cases hany : (g.any fun r => exBool (evaluateRule p r obj)) with
      | false => simp [hany]
      | true => rw [ih hgs]; simp [hany]
  · intro g₁ r g₂ gs hall hr
    rw [evaluateRules, evalGroup_firstMatch p obj g₁ r g₂ hall hr]
  · intro g gs hall
    rw [evaluateRules, evalGroup_allFalse p obj g hall]

/-- Closed witness for C2: the empty rule set accepts the record 3; the
record 3 satisfies the AND/OR combination of concrete pure rules; a group
whose first matching rule comes before an erroring rule never reaches the
erroring rule; a group matching nothing rejects the record without looking
at the later (erroring) group. -/
theorem claim_C2_witness :
    (evaluateRules pW [] 3 = .ok true) ∧
    (evaluateRules pW [[ruleLt5], [ruleLt0, ruleGt2], [ruleGt2]] 3 =
      .ok ([[ruleLt5], [ruleLt0, ruleGt2], [ruleGt2]].all fun g =>
        g.any fun r => exBool (evaluateRule pW r 3))) ∧
    (evaluateRules pW [[ruleLt5, ruleBoom]] 3 = evaluateRules pW [] 3) ∧
    (evaluateRules pW [[ruleLt0], [ruleBoom]] 3 = .ok false) := by
  obtain ⟨h1, h2, h3, h4⟩ := claim_C2_and_of_ors pW 3
  refine ⟨h1, h2 _ (by decide), ?_, ?_⟩
  · have := h3 [] ruleLt5 [ruleBoom] [] (by simp) rfl
    simpa using this
  · exact h4 [ruleLt0] [[ruleBoom]] (by simp only [List.mem_singleton]; rintro r rfl; rfl)

/-- C7: a rule whose field does not resolve on the record is a soft
non-match — `evaluateRule` returns `false` with no error — while any other
field-extraction failure is returned as a hard error, which aborts an
`ApplySubset` pass as soon as such a record is evaluated, returning
`(0, 0, err)`. -/
theorem claim_C7_field_not_found_soft {α : Type} (p : Processor α) (rule : Rule) (obj : α) :
    (p.GetFieldValue obj rule.Field = .error .notFound →
      evaluateRule p rule obj = .ok false) ∧
    (∀ msg, p.GetFieldValue obj rule.Field = .error (.other msg) →
      evaluateRule p rule obj = .error msg ∧
      (1 ≤ p.maxRules → ∀ L : ℤ, 1 ≤ L →
        ApplySubset p [[rule]] (.slicePtr [obj]) 0 L =
          ⟨some (.evalError msg), .slicePtr [obj], 0, 0⟩)) := by
  constructor
  · intro hnf
    unfold evaluateRule
    rw [hnf]
  · intro msg hother
    have heval : evaluateRule p rule obj = .error msg := by
      unfold evaluateRule
      rw [hother]
    refine ⟨heval, ?_⟩
    intro hmax L hL
    have hrules : evaluateRules p [[rule]] obj = .error msg := by
      rw [evaluateRules, evalGroup, heval]
    have hc : checkRulesCount p [[rule]] = none := by
      unfold checkRulesCount totalRulesCount
      simp only [List.map_cons, List.map_nil, List.length_cons, List.length_nil, List.sum_cons,
        List.sum_nil]
      rw [if_neg (by omega)]
    simp only [ApplySubset, if_neg (by omega : ¬ (0 : ℤ) < 0), if_neg (by omega : ¬ L < 1), hc,
      filterSliceValue, filterLoop, hrules]
    rfl

/-- Closed witness for C7: a getter that never finds the field makes the
rule a non-match without error; a getter that fails hard propagates its
message and aborts the pass with the collection length unchanged. -/
theorem claim_C7_witness :
    evaluateRule pNotFound ruleLt5 1 = .ok false ∧
    evaluateRule pHardErr ruleLt5 1 = .error "accessor failure" ∧
    ApplySubset pHardErr [[ruleLt5]] (.slicePtr [1]) 0 1 =
      ⟨some (.evalError "accessor failure"), .slicePtr [1], 0, 0⟩ :=
  ⟨(claim_C7_field_not_found_soft pNotFound ruleLt5 1).1 rfl,
   ((claim_C7_field_not_found_soft pHardErr ruleLt5 1).2 "accessor failure" rfl).1,
   ((claim_C7_field_not_found_soft pHardErr ruleLt5 1).2 "accessor failure" rfl).2
     (by decide) 1 (by decide)⟩

theorem evaluateRules_ne_true_of_empty_group {α : Type} (p : Processor α) :
    ∀ rules : List (List Rule), [] ∈ rules → ∀ obj : α,
      evaluateRules p rules obj ≠ .ok true := by
  intro rules
  induction rules with
  | nil => intro hmem; exact absurd hmem (List.not_mem_nil [])
  | cons g gs ih =>
    intro hmem obj
    rcases List.mem_cons.mp hmem with hg | hgs
    · rw [evaluateRules, ← hg, evalGroup]
      simp
    · rw [evaluateRules]
      cases hgr : evalGroup p obj g with
      | error e => simp
      | ok b =>
        cases b with
        | false => simp
        | true => exact ih hgs obj

/-- C9: a rule set containing an empty inner group never matches a record
(its result is never a match), so a successful `ApplySubset` with such a
rule set truncates the slice to length 0 and returns `(0, 0, nil)`. -/
theorem claim_C9_empty_group_rejects {α : Type} (p : Processor α) (rules : List (List Rule))
    (hmem : [] ∈ rules) :
    (∀ obj : α, evaluateRules p rules obj ≠ .ok true) ∧
    (∀ (l : List α) (offset length : ℤ) (out : FilterOutcome α),
      ApplySubset p rules (.slicePtr l) offset length = out → out.err = none →
      out = ⟨none, .slicePtr [], 0, 0⟩) := by
  have hne := evaluateRules_ne_true_of_empty_group p rules hmem
  refine ⟨hne, ?_⟩
  intro l offset length out h hnone
  obtain ⟨-, -, -, -, hout⟩ := ApplySubset_success p rules l offset length out h hnone
  have hfalse : ∀ x ∈ l, exBool (evaluateRules p rules x) = false := by
    intro x _
    cases he : evaluateRules p rules x with
    | error e => rfl
    | ok b =>
      cases b with
      | false => rfl
      | true => exact absurd he (hne x)
  have hnil : l.filter (fun x => exBool (evaluateRules p rules x)) = [] := by
    rw [List.filter_eq_nil_iff]
    intro a ha
    rw [hfalse a ha]
    simp
  rw [hout, hnil]
  simp

/-- Closed witness for C9: the rule set `[[]]` retains nothing from a
concrete slice. -/
theorem claim_C9_witness :
    ApplySubset pW [[]] (.slicePtr [5, 6]) 0 3 = ⟨none, .slicePtr [], 0, 0⟩ :=
  (claim_C9_empty_group_rejects pW [[]] (List.Mem.head _)).2 [5, 6] 0 3 _ rfl rfl

/-- C8: `newHasSuffix` fails with a type error on every non-string
reference; on a string reference `suffix` it succeeds, the resulting
evaluator accepts `s ++ suffix` for every string `s`, and rejects every
non-string input. -/
theorem claim_C8_hasSuffix (r : GoValue) :
    ((∀ s, r ≠ GoValue.str s) → ∃ e, newHasSuffix r = .error e) ∧
    (∀ suf, r = GoValue.str suf →
      newHasSuffix r = .ok ⟨suf⟩ ∧
      (∀ s, EvalHasSuffix.Evaluate ⟨suf⟩ (.str (s ++ suf)) = true) ∧
      (∀ v, (∀ s, v ≠ GoValue.str s) → EvalHasSuffix.Evaluate ⟨suf⟩ v = false)) := by
  constructor
  · intro hns
    cases r with
    | str s => exact absurd rfl (hns s)
    | null => exact ⟨_, rfl⟩
    | int i => exact ⟨_, rfl⟩
    | float q => exact ⟨_, rfl⟩
    | arr l => exact ⟨_, rfl⟩
    | mapLen n => exact ⟨_, rfl⟩
    | unsup t => exact ⟨_, rfl⟩
  · rintro suf rfl
    refine ⟨rfl, ?_, ?_⟩
    · intro s
      unfold EvalHasSuffix.Evaluate goStringHasSuffix
      simp only [String.data_append, List.length_append, Bool.and_eq_true, decide_eq_true_eq]
      constructor
      · omega
      · have : s.data.length + suf.data.length - suf.data.length = s.data.length := by omega
        rw [this, List.drop_left]
    · intro v hv
      cases v with
      | str s => exact absurd rfl (hv s)
      | null => rfl
      | int i => rfl
      | float q => rfl
      | arr l => rfl
      | mapLen n => rfl
      | unsup t => rfl

/-- Closed witness for C8: an integer reference is rejected; the reference
string `"lo"` yields an evaluator accepting `"ciao" ++ "lo"` and rejecting
the non-string input 7. -/
theorem claim_C8_witness :
    (∃ e, newHasSuffix (.int 5) = .error e) ∧
    newHasSuffix (.str "lo") = .ok ⟨"lo"⟩ ∧
    EvalHasSuffix.Evaluate ⟨"lo"⟩ (.str ("ciao" ++ "lo")) = true ∧
    EvalHasSuffix.Evaluate ⟨"lo"⟩ (.int 7) = false :=
  ⟨(claim_C8_hasSuffix (.int 5)).1 (fun _ h => nomatch h),
   ((claim_C8_hasSuffix (.str "lo")).2 "lo" rfl).1,
   ((claim_C8_hasSuffix (.str "lo")).2 "lo" rfl).2.1 "ciao",
   ((claim_C8_hasSuffix (.str "lo")).2 "lo" rfl).2.2 (.int 7) (fun _ h => nomatch h)⟩

/-- C4 counterexample: the GTE evaluator is successfully built from the
numeric reference 4.5, and on the string input "hola" of length 4 it
returns true, although 4 >= 4.5 is false — the source compares the length
against the truncation `int(ref)`, not against the reference itself. -/
theorem claim_C4_counterexample :
    newGTE (.float ratNineHalves) = .ok ⟨ratNineHalves⟩ ∧
    goLen (.str "hola") = some 4 ∧
    Gte.Evaluate ⟨ratNineHalves⟩ (.str "hola") = true ∧
    ¬ ((4 : ℚ) ≥ ratNineHalves) := by
  refine ⟨rfl, rfl, by decide, by rw [ratNineHalves]; decide⟩

/-- C4 (amended): for the GTE evaluator built from any numeric reference
`r`, on every array/map/slice/string input of length `L` the result is
exactly `L >= int(r)` where `int(r)` truncates `r` toward zero — in
particular, whenever the reference is an integer `i`, the result is
exactly `L >= i` independent of the elements' contents. -/
theorem claim_C4_gte_length_compare (r : GoValue) (g : Gte) (_hg : newGTE r = .ok g)
    (v : GoValue) (L : ℕ) (hL : goLen v = some L) :
    g.Evaluate v = decide (goTrunc g.ref ≤ (L : ℤ)) ∧
    (∀ i : ℤ, g.ref = (i : ℚ) → g.Evaluate v = decide (i ≤ (L : ℤ))) := by
  have hmain : g.Evaluate v = decide (goTrunc g.ref ≤ (L : ℤ)) := by
    cases v with
    | str s =>
      rw [goLen] at hL
      have : s.length = L := by injection hL
      rw [Gte.Evaluate, ← this]
      rfl
    | arr l =>
      rw [goLen] at hL
      have : l.length = L := by injection hL
      rw [Gte.Evaluate, ← this]
      rfl
    | mapLen n =>
      rw [goLen] at hL
      have : n = L := by injection hL
      rw [Gte.Evaluate, ← this]
      rfl
    | null => simp [goLen] at hL
    | int i => simp [goLen] at hL
    | float q => simp [goLen] at hL
    | unsup t => simp [goLen] at hL
  refine ⟨hmain, ?_⟩
  intro i hi
  rw [hmain, hi]
  unfold goTrunc
  rw [Rat.num_intCast, Rat.den_intCast]
  norm_num

/-- Closed witness for the amended C4: with the integer reference 3 and the
string input "hola" of length 4, the evaluator returns the truth value of
4 >= 3. -/
theorem claim_C4_witness :
    Gte.Evaluate ⟨((3 : ℤ) : ℚ)⟩ (.str "hola") = decide (goTrunc ((3 : ℤ) : ℚ) ≤ ((4 : ℕ) : ℤ)) ∧
    Gte.Evaluate ⟨((3 : ℤ) : ℚ)⟩ (.str "hola") = decide ((3 : ℤ) ≤ ((4 : ℕ) : ℤ)) :=
  ⟨(claim_C4_gte_length_compare (.int 3) ⟨((3 : ℤ) : ℚ)⟩ rfl (.str "hola") 4 rfl).1,
   (claim_C4_gte_length_compare (.int 3) ⟨((3 : ℤ) : ℚ)⟩ rfl (.str "hola") 4 rfl).2 3 rfl⟩

/-- C10: `ParseURLQuery` reads only the first value stored under the
configured filter key — any two query maps whose first value for that key
agree produce the same result, whatever the remaining values are — and when
that first value is the empty string the result is a nil rule set with no
error, even if later values carry valid JSON. -/
theorem claim_C10_first_value_only {α : Type}
    (parseJSON : String → Except String (List (List Rule))) (p : Processor α)
    (q q' : String → List String) (v : String) (rest rest' : List String)
    (hq : q p.urlQueryFilterKey = v :: rest) (hq' : q' p.urlQueryFilterKey = v :: rest') :
    ParseURLQuery parseJSON p q = ParseURLQuery parseJSON p q' ∧
    (v = "" → ParseURLQuery parseJSON p q = .ok none) := by
  have hv : urlValuesGet q p.urlQueryFilterKey = v := by
    unfold urlValuesGet
    rw [hq]
  have hv' : urlValuesGet q' p.urlQueryFilterKey = v := by
    unfold urlValuesGet
    rw [hq']
  constructor
  · unfold ParseURLQuery
    rw [hv, hv']
  · rintro rfl
    unfold ParseURLQuery
    rw [hv]
    rfl

/-- Closed witness for C10: with first value `""` and a second value that
parses to a valid rule set, the parse result is a nil rule set with no
error, and equals the result for a query carrying only the empty first
value. -/
theorem claim_C10_witness :
    ParseURLQuery parseJSONW pW (fun k => if k = "filter" then ["", "[[x]]"] else []) =
      ParseURLQuery parseJSONW pW (fun k => if k = "filter" then [""] else ["junk"]) ∧
    ParseURLQuery parseJSONW pW (fun k => if k = "filter" then ["", "[[x]]"] else []) =
      .ok none := by
  obtain ⟨h1, h2⟩ := claim_C10_first_value_only parseJSONW pW
    (fun k => if k = "filter" then ["", "[[x]]"] else [])
    (fun k => if k = "filter" then [""] else ["junk"]) "" ["[[x]]"] [] rfl rfl
  exact ⟨h1, h2 rfl⟩
